import Mathlib

/-!
Verification of the scene-merge and chunking core of the auto-short-generator
repository (`src/autos/scene_merge.py` and `src/autos/chunker.py`).

Times are modelled as rationals (the Python code computes with IEEE floats,
but every operation used — `+`, `-`, `abs`, `max`, comparisons — is exact on
the inputs considered, so ℚ is a faithful model of the real-number semantics
the spec describes).  Python `None`-able locals become `Option`, the mutable
accumulation loops become structural recursions carrying the same state.
-/

namespace AutoShorts

/-! ## Scene Merge Engine (`scene_merge.py`) -/

namespace SceneMerge

/-- `Scene` dataclass of `scene_merge.py`: fields `i`, `start_sec`, `end_sec`. -/
structure Scene where
  i : Int
  start_sec : ℚ
  end_sec : ℚ
  deriving DecidableEq

/-- The `dur` property: `max(0.0, end_sec - start_sec)`. -/
def Scene.dur (s : Scene) : ℚ := max 0 (s.end_sec - s.start_sec)

/-- Default scene used to totalize list indexing in statements; every access
is guarded by an in-bounds hypothesis. -/
def dummyScene : Scene := ⟨0, 0, 0⟩

/-- The main loop of `merge_micro_scenes`.  The Python code mutates a growable
`merged` list and a `chain` counter; here `acc` is that list in reverse order
(head = most recently kept scene, which the code calls `merged[-1]`) and
`chain` is the consecutive-merge counter.  A short scene (`dur < mn`) is
absorbed by extending the head's `end_sec` to `max(end, sc.end_sec)`; the
counter is incremented, and when it reaches `mc` (`chain >= max_merge_chain`)
the scene is additionally appended and the counter resets to 0. -/
def mergeLoop (mn : ℚ) (mc : Int) : List Scene → List Scene → Nat → List Scene
  | [], acc, _ => acc.reverse
  | sc :: rest, acc, chain =>
    match acc with
    | [] => mergeLoop mn mc rest [sc] chain
    | prev :: tail =>
      if sc.dur < mn then
        if mc ≤ ((chain + 1 : Nat) : Int) then
          mergeLoop mn mc rest (sc :: ⟨prev.i, prev.start_sec, max prev.end_sec sc.end_sec⟩ :: tail) 0
        else
          mergeLoop mn mc rest (⟨prev.i, prev.start_sec, max prev.end_sec sc.end_sec⟩ :: tail) (chain + 1)
      else
        mergeLoop mn mc rest (sc :: prev :: tail) 0

/-- The final re-indexing pass: `for idx, sc in enumerate(merged, start=1): sc.i = idx`. -/
def reindex (l : List Scene) : List Scene :=
  l.enum.map fun p => ⟨(p.1 : Int) + 1, p.2.start_sec, p.2.end_sec⟩

/-- `merge_micro_scenes(scenes, min_scene_sec, max_merge_chain)`. -/
def merge_micro_scenes (scenes : List Scene) (min_scene_sec : ℚ) (max_merge_chain : Int) :
    List Scene :=
  reindex (mergeLoop min_scene_sec max_merge_chain scenes [] 0)

/-- Instrumented copy of `mergeLoop` that additionally tags every kept scene
with `true` iff it was appended by the forced chain-break branch.  Used to
state which output scenes are (not) break-produced; `mergeLoopT_fst` proves it
computes the same scenes as `mergeLoop`. -/
def mergeLoopT (mn : ℚ) (mc : Int) :
    List Scene → List (Scene × Bool) → Nat → List (Scene × Bool)
  | [], acc, _ => acc.reverse
  | sc :: rest, acc, chain =>
    match acc with
    | [] => mergeLoopT mn mc rest [(sc, false)] chain
    | prev :: tail =>
      if sc.dur < mn then
        if mc ≤ ((chain + 1 : Nat) : Int) then
          mergeLoopT mn mc rest
            ((sc, true) :: (⟨prev.1.i, prev.1.start_sec, max prev.1.end_sec sc.end_sec⟩, prev.2) :: tail) 0
        else
          mergeLoopT mn mc rest
            ((⟨prev.1.i, prev.1.start_sec, max prev.1.end_sec sc.end_sec⟩, prev.2) :: tail) (chain + 1)
      else
        mergeLoopT mn mc rest ((sc, false) :: prev :: tail) 0

/-- The break-tags of the merged output: `true` at a position iff that kept
scene was appended by the forced chain-break branch. -/
def breakTags (scenes : List Scene) (mn : ℚ) (mc : Int) : List Bool :=
  (mergeLoopT mn mc scenes [] 0).map Prod.snd

end SceneMerge

/-! ## Chunk Builder (`chunker.py`) -/

namespace Chunker

/-- `Scene` dataclass of `chunker.py`: `scene_index`, `start_sec`, `end_sec`. -/
structure Scene where
  scene_index : Int
  start_sec : ℚ
  end_sec : ℚ
  deriving DecidableEq

/-- The `duration_sec` property: `max(0.0, end_sec - start_sec)`. -/
def Scene.duration_sec (s : Scene) : ℚ := max 0 (s.end_sec - s.start_sec)

/-- Default scene used to totalize list indexing; every access is proved
in-bounds, so its value never influences a result. -/
def dummyScene : Scene := ⟨0, 0, 0⟩

/-- Chunk record written by `build_chunks` (a Python dict with these keys). -/
structure Chunk where
  chunk_index : Nat
  start_scene_index : Int
  end_scene_index : Int
  chunk_start_sec : ℚ
  chunk_end_sec : ℚ
  duration_sec : ℚ
  scene_count : Nat
  deriving DecidableEq

/-- The candidate trackers of one inner scan of `build_chunks`:
`last_under_idx`, `first_over_idx`, `best_idx`, `best_abs`, `best_dur`. -/
structure ScanState where
  last_under_idx : Option Nat
  first_over_idx : Option Nat
  best_idx : Option Nat
  best_abs : Option ℚ
  best_dur : Option ℚ
  deriving DecidableEq

/-- All five trackers start as `None`. -/
def initScan : ScanState := ⟨none, none, none, none, none⟩

/-- Python's `best_dur or duration`: `None` and `0.0` are falsy, any other
float is truthy and returned unchanged. -/
def pyOrQ : Option ℚ → ℚ → ℚ
  | none, d => d
  | some x, d => if x = 0 then d else x

/-- The update condition of lines 104–108 of `chunker.py`:
`best_abs is None or abs_diff < best_abs or
 (abs_diff == best_abs and duration < (best_dur or duration))`. -/
def bestBeats (ba bd : Option ℚ) (ad d : ℚ) : Bool :=
  match ba with
  | none => true
  | some b => decide (ad < b) || (decide (ad = b) && decide (d < pyOrQ bd d))

/-- The inner `for j in range(i, n)` scan of `build_chunks` (lines 98–114),
processing the scene sub-list starting at absolute index `j` with chunk start
time `cs`; stops early when `duration > target + tolerance` (`first_over`). -/
def scanLoop (t tol cs : ℚ) : List Scene → Nat → ScanState → ScanState
  | [], _, st => st
  | sc :: rest, j, st =>
    let d := sc.end_sec - cs
    let st1 := if d ≤ t then { st with last_under_idx := some j } else st
    let st2 :=
      if |d - t| ≤ tol then
        if bestBeats st1.best_abs st1.best_dur |d - t| d then
          { st1 with best_idx := some j, best_abs := some |d - t|, best_dur := some d }
        else st1
      else st1
    if t + tol < d then { st2 with first_over_idx := some j }
    else scanLoop t tol cs rest (j + 1) st2

/-- The boundary-selection policy of lines 116–128 of `build_chunks`. -/
def selectEndIdx (scenes : List Scene) (t cs : ℚ) (st : ScanState) : Nat :=
  match st.best_idx with
  | some b => b
  | none =>
    match st.first_over_idx with
    | none => scenes.length - 1
    | some fo =>
      match st.last_under_idx with
      | none => fo
      | some lu =>
        if |t - ((scenes.getD lu dummyScene).end_sec - cs)| ≤
            |((scenes.getD fo dummyScene).end_sec - cs) - t| then lu
        else fo

/-- The end index selected for the chunk whose first scene sits at position
`i`: one full inner scan followed by the selection policy. -/
def chunkEnd (scenes : List Scene) (t tol : ℚ) (i : Nat) : Nat :=
  selectEndIdx scenes t ((scenes.getD i dummyScene).start_sec)
    (scanLoop t tol ((scenes.getD i dummyScene).start_sec) (scenes.drop i) i initScan)

/-- The chunk dict built at lines 130–140 for scenes `i..e` (inclusive). -/
def mkChunk (scenes : List Scene) (ci i e : Nat) : Chunk :=
  ⟨ci, (scenes.getD i dummyScene).scene_index, (scenes.getD e dummyScene).scene_index,
    (scenes.getD i dummyScene).start_sec, (scenes.getD e dummyScene).end_sec,
    max 0 ((scenes.getD e dummyScene).end_sec - (scenes.getD i dummyScene).start_sec),
    e - i + 1⟩

/-- The outer `while i < n` loop of `build_chunks`, with explicit fuel.
Every iteration advances `i` to `chunkEnd + 1`, so `scenes.length` units of
fuel always suffice (`build_chunks_terminates`); `none` marks fuel running out
before the loop condition fails and is proved unreachable. -/
def buildLoop (scenes : List Scene) (t tol : ℚ) : Nat → Nat → Nat → Option (List Chunk)
  | 0, i, _ => if scenes.length ≤ i then some [] else none
  | fuel + 1, i, ci =>
    if i < scenes.length then
      match buildLoop scenes t tol fuel (chunkEnd scenes t tol i + 1) (ci + 1) with
      | none => none
      | some rest => some (mkChunk scenes ci i (chunkEnd scenes t tol i) :: rest)
    else some []

/-- `build_chunks(scenes, target_sec, tolerance_sec)` (lines 67–145). -/
def build_chunks (scenes : List Scene) (target_sec tolerance_sec : ℚ) : List Chunk :=
  (buildLoop scenes target_sec tolerance_sec scenes.length 0 0).getD []

/-! ### Declarative vocabulary for the chunking claims -/

/-- `duration(j)` for the chunk starting at scene position `i`:
`scenes[j].end_sec - scenes[i].start_sec`. -/
def durAt (scenes : List Scene) (i j : Nat) : ℚ :=
  (scenes.getD j dummyScene).end_sec - (scenes.getD i dummyScene).start_sec

/-- Position `j` is reached by the forward scan that starts at `i`: it is a
valid position at or after `i` and no earlier scanned scene already exceeded
`target + tolerance` (which would have stopped the scan). -/
def Scanned (scenes : List Scene) (t tol : ℚ) (i j : Nat) : Prop :=
  i ≤ j ∧ j < scenes.length ∧ ∀ k, i ≤ k → k < j → durAt scenes i k ≤ t + tol

/-- `|duration(j) - target| <= tolerance`: scene `j` is an in-band candidate. -/
def InBand (scenes : List Scene) (t tol : ℚ) (i j : Nat) : Prop :=
  |durAt scenes i j - t| ≤ tol

/-- `duration(j) > target + tolerance`: scene `j` overshoots the band. -/
def OverBand (scenes : List Scene) (t tol : ℚ) (i j : Nat) : Prop :=
  t + tol < durAt scenes i j

/-- `e` is the best in-band candidate of the scan starting at `i`: scanned,
in band, of minimal `|duration - target|`, with ties preferring the smaller
duration. -/
def BestAt (scenes : List Scene) (t tol : ℚ) (i e : Nat) : Prop :=
  Scanned scenes t tol i e ∧ InBand scenes t tol i e ∧
    ∀ j, Scanned scenes t tol i j → InBand scenes t tol i j →
      (|durAt scenes i e - t| < |durAt scenes i j - t| ∨
        (|durAt scenes i e - t| = |durAt scenes i j - t| ∧ durAt scenes i e ≤ durAt scenes i j))

/-- `u` is the last scanned scene with `duration <= target`. -/
def MaxUnder (scenes : List Scene) (t tol : ℚ) (i u : Nat) : Prop :=
  Scanned scenes t tol i u ∧ durAt scenes i u ≤ t ∧
    ∀ j, Scanned scenes t tol i j → durAt scenes i j ≤ t → j ≤ u

/-- `f` is the first over-band scene (a scanned over-band scene is unique:
the scan stops at it). -/
def FirstOver (scenes : List Scene) (t tol : ℚ) (i f : Nat) : Prop :=
  Scanned scenes t tol i f ∧ OverBand scenes t tol i f

/-- The Nearest Scene Boundary Rule for the chunk starting at `i`, in the
spec's priority order: (1) if an in-band candidate exists, the best one is
used; (2) else if no scene from `i` on overshoots the band, the last scene of
the list; (3) else if every scanned duration exceeds `target`, the first
over-band scene; (4) else whichever of the last under-target scene and the
first over-band scene ends numerically closer to `target`, ties favoring the
under-target one. -/
def EndSel (scenes : List Scene) (t tol : ℚ) (i e : Nat) : Prop :=
  ((∃ j, Scanned scenes t tol i j ∧ InBand scenes t tol i j) ∧ BestAt scenes t tol i e)
  ∨ ((∀ j, Scanned scenes t tol i j → ¬ InBand scenes t tol i j) ∧
      (∀ j, i ≤ j → j < scenes.length → ¬ OverBand scenes t tol i j) ∧
      e = scenes.length - 1)
  ∨ ((∀ j, Scanned scenes t tol i j → ¬ InBand scenes t tol i j) ∧
      (∀ j, Scanned scenes t tol i j → t < durAt scenes i j) ∧
      FirstOver scenes t tol i e)
  ∨ ((∀ j, Scanned scenes t tol i j → ¬ InBand scenes t tol i j) ∧
      (∃ u, MaxUnder scenes t tol i u ∧ ∃ f, FirstOver scenes t tol i f ∧
        e = if |t - durAt scenes i u| ≤ |durAt scenes i f - t| then u else f))

/-- The chunk list `cs` decomposes the scene positions `i, i+1, …, n-1` into
contiguous runs `i..e`, where each `e` is the end position actually selected
by `build_chunks` (`chunkEnd`) and each emitted record is `mkChunk` of the
run; chunk indices count up from `ci`. -/
inductive ChunkCov (scenes : List Scene) (t tol : ℚ) : Nat → Nat → List Chunk → Prop where
  | nil (i ci : Nat) : i = scenes.length → ChunkCov scenes t tol i ci []
  | cons (i ci e : Nat) (c : Chunk) (rest : List Chunk) :
      i < scenes.length → i ≤ e → e < scenes.length →
      e = chunkEnd scenes t tol i →
      c = mkChunk scenes ci i e →
      ChunkCov scenes t tol (e + 1) (ci + 1) rest →
      ChunkCov scenes t tol i ci (c :: rest)

/-- The scene positions covered by a chunk list, reading `scene_count` scenes
per chunk starting at position `i`. -/
def coveredPositions : Nat → List Chunk → List Nat
  | _, [] => []
  | i, c :: rest => List.range' i c.scene_count ++ coveredPositions (i + c.scene_count) rest

/-- The inclusive integer range `[a, b]` as a list. -/
def intRangeIncl (a b : Int) : List Int :=
  (List.range (b + 1 - a).toNat).map fun k : Nat => a + (k : Int)

/-- Characterization of `last_under_idx` after scanning positions `[i, m)`:
either none of them had `duration <= target`, or it is the greatest one that
did. -/
def LUInv (scenes : List Scene) (t : ℚ) (i m : Nat) (o : Option Nat) : Prop :=
  (o = none ∧ ∀ k, i ≤ k → k < m → t < durAt scenes i k) ∨
  (∃ u, o = some u ∧ i ≤ u ∧ u < m ∧ durAt scenes i u ≤ t ∧
    ∀ k, u < k → k < m → t < durAt scenes i k)

/-- Characterization of the `best` trackers after scanning positions
`[i, m)`: either no scanned position was in band, or `bi` is an in-band
position of minimal `|duration - target|` (ties preferring the smaller
duration) with `ba`/`bd` caching its distance and duration. -/
def BInv (scenes : List Scene) (t tol : ℚ) (i m : Nat)
    (bi : Option Nat) (ba bd : Option ℚ) : Prop :=
  (bi = none ∧ ba = none ∧ bd = none ∧
    ∀ k, i ≤ k → k < m → tol < |durAt scenes i k - t|) ∨
  (∃ b, bi = some b ∧ ba = some |durAt scenes i b - t| ∧ bd = some (durAt scenes i b) ∧
    i ≤ b ∧ b < m ∧ |durAt scenes i b - t| ≤ tol ∧
    ∀ k, i ≤ k → k < m → |durAt scenes i k - t| ≤ tol →
      (|durAt scenes i b - t| < |durAt scenes i k - t| ∨
        (|durAt scenes i b - t| = |durAt scenes i k - t| ∧
          durAt scenes i b ≤ durAt scenes i k)))

/-- No position in `[i, m)` exceeds `target + tolerance`. -/
def NoOver (scenes : List Scene) (t tol : ℚ) (i m : Nat) : Prop :=
  ∀ k, i ≤ k → k < m → durAt scenes i k ≤ t + tol

/-- Full characterization of a finished scan that started at `i`: either the
scan ran to the end of the list without finding an over-band scene, or it
stopped at the first over-band position `f`; in both cases the under/best
trackers describe exactly the scanned prefix. -/
def ScanPost (scenes : List Scene) (t tol : ℚ) (i : Nat) (st : ScanState) : Prop :=
  (st.first_over_idx = none ∧ NoOver scenes t tol i scenes.length ∧
    LUInv scenes t i scenes.length st.last_under_idx ∧
    BInv scenes t tol i scenes.length st.best_idx st.best_abs st.best_dur) ∨
  (∃ f, st.first_over_idx = some f ∧ i ≤ f ∧ f < scenes.length ∧
    t + tol < durAt scenes i f ∧ NoOver scenes t tol i f ∧
    LUInv scenes t i f st.last_under_idx ∧
    BInv scenes t tol i f st.best_idx st.best_abs st.best_dur)

/-- All indices recorded in a scan state lie in `[a, b)`. -/
def StBd (st : ScanState) (a b : Nat) : Prop :=
  (∀ k, st.last_under_idx = some k → a ≤ k ∧ k < b) ∧
  (∀ k, st.first_over_idx = some k → a ≤ k ∧ k < b) ∧
  (∀ k, st.best_idx = some k → a ≤ k ∧ k < b)

/-- The input scene list is sorted by `(start_sec, end_sec)`. -/
def SortedScenes (l : List Scene) : Prop :=
  l.Pairwise fun a b =>
    a.start_sec < b.start_sec ∨ (a.start_sec = b.start_sec ∧ a.end_sec ≤ b.end_sec)

end Chunker

end AutoShorts

/-! ## Proofs about the Scene Merge Engine -/

namespace AutoShorts

namespace SceneMerge

theorem mergeLoopT_fst (mn : ℚ) (mc : Int) :
    ∀ (l : List Scene) (acc : List (Scene × Bool)) (chain : Nat),
      (mergeLoopT mn mc l acc chain).map Prod.fst = mergeLoop mn mc l (acc.map Prod.fst) chain := by
  intro l
  induction l with
  | nil => intro acc chain; simp [mergeLoopT, mergeLoop]
  | cons sc rest ih =>
    intro acc chain
    cases acc with
    | nil => simpa [mergeLoopT, mergeLoop] using ih [(sc, false)] chain
    | cons prev tail =>
      by_cases h1 : sc.dur < mn
      · by_cases h2 : mc ≤ (chain : Int) + 1
        · simpa [mergeLoopT, mergeLoop, h1, h2] using
            ih ((sc, true) :: (⟨prev.1.i, prev.1.start_sec, max prev.1.end_sec sc.end_sec⟩, prev.2) :: tail) 0
        · simpa [mergeLoopT, mergeLoop, h1, h2] using
            ih ((⟨prev.1.i, prev.1.start_sec, max prev.1.end_sec sc.end_sec⟩, prev.2) :: tail) (chain + 1)
      · simpa [mergeLoopT, mergeLoop, h1] using ih ((sc, false) :: prev :: tail) 0

theorem mergeLoop_allShort (mn : ℚ) (mc : Int) :
    ∀ (ssf : List Scene) (slast prev : Scene) (rest tail : List Scene) (chain : Nat),
      (∀ s ∈ ssf ++ [slast], s.dur < mn) →
      ((chain : Int) + (ssf.length + 1) = mc) →
      mergeLoop mn mc ((ssf ++ [slast]) ++ rest) (prev :: tail) chain =
        mergeLoop mn mc rest
          (slast ::
            (⟨prev.i, prev.start_sec,
              (ssf ++ [slast]).foldl (fun e s => max e s.end_sec) prev.end_sec⟩ : Scene) :: tail)
          0 := by
  intro ssf
  induction ssf with
  | nil =>
    intro slast prev rest tail chain hshort hchain
    have h1 : slast.dur < mn := hshort slast (by simp)
    simp only [List.length_nil, Nat.cast_zero] at hchain
    have h2 : mc ≤ (chain : Int) + 1 := by omega
    simp [mergeLoop, h1, h2]
  | cons s ssf ih =>
    intro slast prev rest tail chain hshort hchain
    have h1 : s.dur < mn := hshort s (by simp)
    simp only [List.length_cons, Nat.cast_add, Nat.cast_one] at hchain
    have h2 : ¬ mc ≤ (chain : Int) + 1 := by omega
    have hrec := ih slast ⟨prev.i, prev.start_sec, max prev.end_sec s.end_sec⟩ rest tail
      (chain + 1) (fun x hx => hshort x (by simpa using Or.inr hx)) (by push_cast; omega)
    simpa [mergeLoop, h1, h2] using hrec

theorem getD_reverse_of_lt {α : Type} (l : List α) (p : Nat) (hp : p < l.length) (d : α) :
    l.reverse.getD p d = l.getD (l.length - 1 - p) d := by
  have h1 : p < l.reverse.length := by simpa using hp
  rw [List.getD_eq_getElem?_getD, List.getD_eq_getElem?_getD,
    List.getElem?_eq_getElem h1, List.getElem?_eq_getElem (by omega)]
  simp [List.getElem_reverse]

theorem dur_extend (a : Scene) (idx : Int) (e : ℚ) :
    a.dur ≤ Scene.dur ⟨idx, a.start_sec, max a.end_sec e⟩ := by
  dsimp [Scene.dur]
  exact max_le_max le_rfl (by linarith [le_max_left a.end_sec e])

theorem mergeLoopT_tail_ge (mn : ℚ) (mc : Int) :
    ∀ (l : List Scene) (acc : List (Scene × Bool)) (chain : Nat),
      (∀ k, k + 1 < acc.length → (acc.getD k (dummyScene, true)).2 = false →
        mn ≤ (acc.getD k (dummyScene, true)).1.dur) →
      ∀ p, 1 ≤ p → p < (mergeLoopT mn mc l acc chain).length →
        ((mergeLoopT mn mc l acc chain).getD p (dummyScene, true)).2 = false →
        mn ≤ ((mergeLoopT mn mc l acc chain).getD p (dummyScene, true)).1.dur := by
  intro l
  induction l with
  | nil =>
    intro acc chain hacc p hp1 hp2 htag
    rw [mergeLoopT] at hp2 htag ⊢
    have hlen : p < acc.length := by simpa using hp2
    rw [getD_reverse_of_lt acc p hlen] at htag ⊢
    exact hacc _ (by omega) htag
  | cons sc rest ih =>
    intro acc chain hacc
    cases acc with
    | nil =>
      rw [show mergeLoopT mn mc (sc :: rest) [] chain = mergeLoopT mn mc rest [(sc, false)] chain
        from by rw [mergeLoopT]]
      exact ih [(sc, false)] chain (by intro k hk; simp at hk)
    | cons prev tail =>
      by_cases h1 : sc.dur < mn
      · by_cases h2 : mc ≤ (chain : Int) + 1
        · rw [show mergeLoopT mn mc (sc :: rest) (prev :: tail) chain =
              mergeLoopT mn mc rest
                ((sc, true) :: (⟨prev.1.i, prev.1.start_sec, max prev.1.end_sec sc.end_sec⟩, prev.2) :: tail) 0
            from by rw [mergeLoopT]; simp [h1, h2]]
          refine ih _ 0 ?_
          intro k hk htag
          match k with
          | 0 => simp at htag
          | 1 =>
            simp only [List.getD_cons_succ, List.getD_cons_zero] at htag ⊢
            exact le_trans (hacc 0 (by simp at hk ⊢; omega) (by simpa using htag))
              (dur_extend prev.1 prev.1.i sc.end_sec)
          | k + 2 =>
            simp only [List.getD_cons_succ] at htag ⊢
            exact hacc (k + 1) (by simp at hk ⊢; omega) (by simpa using htag)
        · rw [show mergeLoopT mn mc (sc :: rest) (prev :: tail) chain =
              mergeLoopT mn mc rest
                ((⟨prev.1.i, prev.1.start_sec, max prev.1.end_sec sc.end_sec⟩, prev.2) :: tail) (chain + 1)
            from by rw [mergeLoopT]; simp [h1, h2]]
          refine ih _ (chain + 1) ?_
          intro k hk htag
          match k with
          | 0 =>
            simp only [List.getD_cons_zero] at htag ⊢
            exact le_trans (hacc 0 (by simp at hk ⊢; omega) (by simpa using htag))
              (dur_extend prev.1 prev.1.i sc.end_sec)
          | k + 1 =>
            simp only [List.getD_cons_succ] at htag ⊢
            exact hacc (k + 1) (by simp at hk ⊢; omega) (by simpa using htag)
      · rw [show mergeLoopT mn mc (sc :: rest) (prev :: tail) chain =
            mergeLoopT mn mc rest ((sc, false) :: prev :: tail) 0
          from by rw [mergeLoopT]; simp [h1]]
        refine ih _ 0 ?_
        intro k hk htag
        match k with
        | 0 => simp only [List.getD_cons_zero] at htag ⊢; exact le_of_not_lt h1
        | k + 1 =>
          simp only [List.getD_cons_succ] at htag ⊢
          exact hacc k (by simp at hk ⊢; omega) htag

end SceneMerge

end AutoShorts

namespace AutoShorts

namespace SceneMerge

theorem reindex_getD (l : List Scene) (p : Nat) (hp : p < l.length) :
    (reindex l).getD p dummyScene =
      ⟨(p : Int) + 1, (l.getD p dummyScene).start_sec, (l.getD p dummyScene).end_sec⟩ := by
  rw [List.getD_eq_getElem?_getD, List.getD_eq_getElem?_getD, List.getElem?_eq_getElem hp]
  have hp2 : p < (reindex l).length := by simpa [reindex] using hp
  rw [List.getElem?_eq_getElem hp2]
  simp [reindex, List.getElem_enum]

theorem map_fst_getD (l : List (Scene × Bool)) (p : Nat) (hp : p < l.length) :
    (l.map Prod.fst).getD p dummyScene = (l.getD p (dummyScene, true)).1 := by
  rw [List.getD_eq_getElem?_getD, List.getD_eq_getElem?_getD, List.getElem?_eq_getElem hp,
    List.getElem?_eq_getElem (by simpa using hp)]
  simp

theorem map_snd_getD (l : List (Scene × Bool)) (p : Nat) (hp : p < l.length) :
    (l.map Prod.snd).getD p true = (l.getD p (dummyScene, true)).2 := by
  rw [List.getD_eq_getElem?_getD, List.getD_eq_getElem?_getD, List.getElem?_eq_getElem hp,
    List.getElem?_eq_getElem (by simpa using hp)]
  simp

theorem merge_eq_reindex_mergeLoopT (scenes : List Scene) (mn : ℚ) (mc : Int) :
    merge_micro_scenes scenes mn mc = reindex ((mergeLoopT mn mc scenes [] 0).map Prod.fst) := by
  rw [merge_micro_scenes, mergeLoopT_fst]
  rfl

end SceneMerge

end AutoShorts

namespace AutoShorts

namespace SceneMerge

/-- Amended claim C2: whenever the consecutive-merge counter reaches
`max_merge_chain` — from any reachable loop state (kept output `prev :: tail`,
counter `chain`) a run of `max_merge_chain - chain` consecutive scenes shorter
than `min_scene_sec` arrives — the short scene whose absorption makes the
counter reach the limit is both absorbed into the previous kept scene (whose
`end_sec` is extended over every absorbed scene's end) and appended as a new
output scene, and the loop continues on the arbitrary remainder of the input
with the counter reset to 0.  The second conjunct exhibits the same break in
the middle of a complete `merge_micro_scenes` run: a kept scene `K`, then
`max_merge_chain` short scenes, then an arbitrary remainder `rest`. -/
theorem merge_chain_break_absorbs_and_appends (mn : ℚ) (ssf : List Scene) (slast : Scene)
    (rest : List Scene) (hshort : ∀ s ∈ ssf ++ [slast], s.dur < mn) :
    (∀ (mc : Int) (prev : Scene) (tail : List Scene) (chain : Nat),
      (chain : Int) + (ssf.length + 1) = mc →
      mergeLoop mn mc ((ssf ++ [slast]) ++ rest) (prev :: tail) chain =
        mergeLoop mn mc rest
          (slast ::
            (⟨prev.i, prev.start_sec,
              (ssf ++ [slast]).foldl (fun e s => max e s.end_sec) prev.end_sec⟩ : Scene) :: tail)
          0) ∧
    (∀ K : Scene,
      merge_micro_scenes (K :: ((ssf ++ [slast]) ++ rest)) mn ((ssf.length : Int) + 1) =
        reindex (mergeLoop mn ((ssf.length : Int) + 1) rest
          (slast ::
            (⟨K.i, K.start_sec,
              (ssf ++ [slast]).foldl (fun e s => max e s.end_sec) K.end_sec⟩ : Scene) :: [])
          0)) := by
  constructor
  · intro mc prev tail chain hchain
    exact mergeLoop_allShort mn mc ssf slast prev rest tail chain hshort hchain
  · intro K
    rw [merge_micro_scenes]
    rw [show mergeLoop mn ((ssf.length : Int) + 1) (K :: ((ssf ++ [slast]) ++ rest)) [] 0 =
        mergeLoop mn ((ssf.length : Int) + 1) ((ssf ++ [slast]) ++ rest) [K] 0 from by
      rw [mergeLoop]]
    rw [mergeLoop_allShort mn ((ssf.length : Int) + 1) ssf slast K rest [] 0 hshort
      (by push_cast; omega)]

/-- Counterexample to claim C2: with `max_merge_chain = 1`, absorbing the
short scene `(10, 11)` makes the counter reach the limit.  The claim says the
break scene is "kept as a new output scene instead of being absorbed into the
previous kept scene", but the code both absorbs it (the first kept scene ends
at 11, not 10) and appends it; neither claim-predicted output (absorbed-only,
or kept-without-absorption) matches the actual output. -/
theorem merge_chain_break_counterexample :
    merge_micro_scenes [⟨1, 0, 10⟩, ⟨2, 10, 11⟩] 2 1 = [⟨1, 0, 11⟩, ⟨2, 10, 11⟩] ∧
    merge_micro_scenes [⟨1, 0, 10⟩, ⟨2, 10, 11⟩] 2 1 ≠ [⟨1, 0, 11⟩] ∧
    merge_micro_scenes [⟨1, 0, 10⟩, ⟨2, 10, 11⟩] 2 1 ≠ [⟨1, 0, 10⟩, ⟨2, 10, 11⟩] := by
  refine ⟨?_, ?_, ?_⟩ <;>
    norm_num [merge_micro_scenes, mergeLoop, reindex, Scene.dur, List.enum, List.enumFrom]

/-- Witness for the amended C2, with a mid-list break: one short scene breaks
the chain at `max_merge_chain = 1` and a long scene still follows. -/
theorem merge_chain_break_absorbs_and_appends_witness :
    (∀ s ∈ ([] : List Scene) ++ [(⟨2, 10, 11⟩ : Scene)], s.dur < 2) ∧
    (((0 : Nat) : Int) + ((([] : List Scene).length : Int) + 1) = 1) ∧
    mergeLoop 2 1 ((([] : List Scene) ++ [(⟨2, 10, 11⟩ : Scene)]) ++ [(⟨3, 11, 20⟩ : Scene)])
        ((⟨1, 0, 10⟩ : Scene) :: []) 0 =
      mergeLoop 2 1 [(⟨3, 11, 20⟩ : Scene)]
        ((⟨2, 10, 11⟩ : Scene) ::
          (⟨1, 0, (([] : List Scene) ++ [(⟨2, 10, 11⟩ : Scene)]).foldl
            (fun e s => max e s.end_sec) 10⟩ : Scene) :: []) 0 ∧
    merge_micro_scenes ((⟨1, 0, 10⟩ : Scene) ::
        ((([] : List Scene) ++ [(⟨2, 10, 11⟩ : Scene)]) ++ [(⟨3, 11, 20⟩ : Scene)])) 2
        ((([] : List Scene).length : Int) + 1) =
      reindex (mergeLoop 2 ((([] : List Scene).length : Int) + 1) [(⟨3, 11, 20⟩ : Scene)]
        ((⟨2, 10, 11⟩ : Scene) ::
          (⟨1, 0, (([] : List Scene) ++ [(⟨2, 10, 11⟩ : Scene)]).foldl
            (fun e s => max e s.end_sec) 10⟩ : Scene) :: []) 0) := by
  have h : ∀ s ∈ ([] : List Scene) ++ [(⟨2, 10, 11⟩ : Scene)], s.dur < 2 := by
    intro s hs
    simp only [List.nil_append, List.mem_singleton] at hs
    subst hs
    rw [Scene.dur]
    exact max_lt (by norm_num) (by norm_num)
  refine ⟨h, by norm_num, ?_, ?_⟩
  · exact (merge_chain_break_absorbs_and_appends 2 [] ⟨2, 10, 11⟩ [⟨3, 11, 20⟩] h).1 1
      ⟨1, 0, 10⟩ [] 0 (by norm_num)
  · exact (merge_chain_break_absorbs_and_appends 2 [] ⟨2, 10, 11⟩ [⟨3, 11, 20⟩] h).2 ⟨1, 0, 10⟩

/-- Counterexample to claim C6: a single input scene shorter than
`min_scene_sec` is kept as-is (the first scene is always kept), so the output
contains a scene with `duration_sec < min_scene_sec` although no forced
chain-break occurred anywhere (all break tags are `false`). -/
theorem merge_duration_floor_counterexample :
    merge_micro_scenes [⟨1, 0, 1⟩] 2 8 = [⟨1, 0, 1⟩] ∧
    breakTags [⟨1, 0, 1⟩] 2 8 = [false] ∧
    Scene.dur ⟨1, 0, 1⟩ < 2 := by
  refine ⟨?_, ?_, ?_⟩
  · norm_num [merge_micro_scenes, mergeLoop, reindex, List.enum, List.enumFrom]
  · norm_num [breakTags, mergeLoopT]
  · rw [Scene.dur]; exact max_lt (by norm_num) (by norm_num)

/-- Amended claim C6: every scene in the merge output except possibly the
first output scene and scenes appended at a forced chain-break has
`duration_sec >= min_scene_sec`. -/
theorem merge_duration_floor_amended (scenes : List Scene) (mn : ℚ) (mc : Int) (k : Nat)
    (hk : k + 1 < (merge_micro_scenes scenes mn mc).length)
    (htag : (breakTags scenes mn mc).getD (k + 1) true = false) :
    mn ≤ ((merge_micro_scenes scenes mn mc).getD (k + 1) dummyScene).dur := by
  have hTlen : (merge_micro_scenes scenes mn mc).length = (mergeLoopT mn mc scenes [] 0).length := by
    rw [merge_eq_reindex_mergeLoopT]; simp [reindex]
  have hl : k + 1 < (mergeLoopT mn mc scenes [] 0).length := hTlen ▸ hk
  have hdur : ((merge_micro_scenes scenes mn mc).getD (k + 1) dummyScene).dur =
      ((mergeLoopT mn mc scenes [] 0).getD (k + 1) (dummyScene, true)).1.dur := by
    rw [merge_eq_reindex_mergeLoopT, reindex_getD _ _ (by simpa using hl), map_fst_getD _ _ hl]
    rfl
  have htag2 : ((mergeLoopT mn mc scenes [] 0).getD (k + 1) (dummyScene, true)).2 = false := by
    rw [breakTags] at htag
    rw [← map_snd_getD _ _ hl]
    exact htag
  rw [hdur]
  exact mergeLoopT_tail_ge mn mc scenes [] 0 (by intro j hj; simp at hj) (k + 1) (by omega) hl htag2

/-- Witness for the amended C6. -/
theorem merge_duration_floor_amended_witness :
    0 + 1 < (merge_micro_scenes [⟨1, 0, 5⟩, ⟨2, 5, 9⟩] 1 8).length ∧
    (breakTags [⟨1, 0, 5⟩, ⟨2, 5, 9⟩] 1 8).getD (0 + 1) true = false ∧
    1 ≤ ((merge_micro_scenes [⟨1, 0, 5⟩, ⟨2, 5, 9⟩] 1 8).getD (0 + 1) dummyScene).dur := by
  have hk : 0 + 1 < (merge_micro_scenes [⟨1, 0, 5⟩, ⟨2, 5, 9⟩] (1 : ℚ) (8 : Int)).length := by
    norm_num [merge_micro_scenes, mergeLoop, reindex, Scene.dur, List.enum, List.enumFrom]
  have htag : (breakTags [⟨1, 0, 5⟩, ⟨2, 5, 9⟩] (1 : ℚ) (8 : Int)).getD (0 + 1) true = false := by
    norm_num [breakTags, mergeLoopT, Scene.dur]
  exact ⟨hk, htag, merge_duration_floor_amended [⟨1, 0, 5⟩, ⟨2, 5, 9⟩] 1 8 0 hk htag⟩

end SceneMerge

end AutoShorts

/-! ## Proofs about the Chunk Builder -/

namespace AutoShorts

namespace Chunker

theorem scanLoop_StBd (t tol cs : ℚ) (a b : Nat) :
    ∀ (l : List Scene) (j : Nat) (st : ScanState),
      a ≤ j → j + l.length ≤ b → StBd st a b → StBd (scanLoop t tol cs l j st) a b := by
  intro l
  induction l with
  | nil => intro j st hj hlen hst; simpa [scanLoop] using hst
  | cons sc rest ih =>
    intro j st hj hlen hst
    obtain ⟨hlu, hfo, hbi⟩ := hst
    have hjb : a ≤ j ∧ j < b := ⟨hj, by simp at hlen; omega⟩
    have hnew : ∀ k, some j = some k → a ≤ k ∧ k < b := by
      intro k hk; injection hk with h; subst h; exact hjb
    have hlen2 : ∀ st2 : ScanState, j + 1 + rest.length ≤ b := by
      intro _; simp at hlen; omega
    obtain ⟨lu, fo, bi, ba, bd⟩ := st
    simp only [scanLoop]
    split_ifs <;>
      first
        | exact ih (j + 1) _ (by omega) (by simp at hlen ⊢; omega) ⟨hnew, hfo, hnew⟩
        | exact ih (j + 1) _ (by omega) (by simp at hlen ⊢; omega) ⟨hnew, hfo, hbi⟩
        | exact ih (j + 1) _ (by omega) (by simp at hlen ⊢; omega) ⟨hlu, hfo, hnew⟩
        | exact ih (j + 1) _ (by omega) (by simp at hlen ⊢; omega) ⟨hlu, hfo, hbi⟩
        | exact ⟨hnew, hnew, hnew⟩
        | exact ⟨hnew, hnew, hbi⟩
        | exact ⟨hlu, hnew, hnew⟩
        | exact ⟨hlu, hnew, hbi⟩

theorem chunkEnd_bounds (scenes : List Scene) (t tol : ℚ) (i : Nat) (hi : i < scenes.length) :
    i ≤ chunkEnd scenes t tol i ∧ chunkEnd scenes t tol i < scenes.length := by
  have hbd : StBd (scanLoop t tol ((scenes.getD i dummyScene).start_sec) (scenes.drop i) i initScan)
      i scenes.length := by
    refine scanLoop_StBd _ _ _ _ _ (scenes.drop i) i initScan le_rfl ?_ ?_
    · simp [List.length_drop]
      omega
    · refine ⟨?_, ?_, ?_⟩ <;> (intro k hk; simp [initScan] at hk)
  obtain ⟨hlu, hfo, hbi⟩ := hbd
  rw [chunkEnd, selectEndIdx]
  rcases hb : (scanLoop t tol ((scenes.getD i dummyScene).start_sec) (scenes.drop i) i
      initScan).best_idx with _ | bv
  · rcases hf : (scanLoop t tol ((scenes.getD i dummyScene).start_sec) (scenes.drop i) i
        initScan).first_over_idx with _ | fv
    · simp only []
      omega
    · rcases hl : (scanLoop t tol ((scenes.getD i dummyScene).start_sec) (scenes.drop i) i
          initScan).last_under_idx with _ | lv
      · simp only []
        exact hfo fv hf
      · simp only []
        have h1 := hfo fv hf
        have h2 := hlu lv hl
        split_ifs <;> omega
  · simp only []
    exact hbi bv hb

end Chunker

end AutoShorts

namespace AutoShorts

namespace Chunker

theorem buildLoop_cov (scenes : List Scene) (t tol : ℚ) :
    ∀ (fuel i ci : Nat), i ≤ scenes.length → scenes.length - i ≤ fuel →
      ∃ cs, buildLoop scenes t tol fuel i ci = some cs ∧ ChunkCov scenes t tol i ci cs := by
  intro fuel
  induction fuel with
  | zero =>
    intro i ci hi hfuel
    have hieq : i = scenes.length := by omega
    subst hieq
    exact ⟨[], by simp [buildLoop], ChunkCov.nil _ _ rfl⟩
  | succ fuel ih =>
    intro i ci hi hfuel
    by_cases hlt : i < scenes.length
    · obtain ⟨he1, he2⟩ := chunkEnd_bounds scenes t tol i hlt
      obtain ⟨rest, hres, hcov⟩ := ih (chunkEnd scenes t tol i + 1) (ci + 1) (by omega) (by omega)
      refine ⟨mkChunk scenes ci i (chunkEnd scenes t tol i) :: rest, ?_, ?_⟩
      · simp [buildLoop, hlt, hres]
      · exact ChunkCov.cons i ci _ _ rest hlt he1 he2 rfl rfl hcov
    · have hieq : i = scenes.length := by omega
      subst hieq
      exact ⟨[], by simp [buildLoop, hlt], ChunkCov.nil _ _ rfl⟩

theorem cov_length (scenes : List Scene) (t tol : ℚ) {i ci : Nat} {cs : List Chunk}
    (h : ChunkCov scenes t tol i ci cs) : cs.length ≤ scenes.length - i := by
  induction h with
  | nil i ci h => simp
  | cons i ci e c rest h1 h2 h3 h4 h5 h6 ih => simp only [List.length_cons]; omega

theorem cov_positions (scenes : List Scene) (t tol : ℚ) {i ci : Nat} {cs : List Chunk}
    (h : ChunkCov scenes t tol i ci cs) :
    coveredPositions i cs = List.range' i (scenes.length - i) := by
  induction h with
  | nil i ci h => subst h; simp [coveredPositions]
  | cons i ci e c rest h1 h2 h3 h4 h5 h6 ih =>
    subst h5
    rw [coveredPositions]
    have hsc : (mkChunk scenes ci i e).scene_count = e - i + 1 := by simp [mkChunk]
    rw [hsc, show i + (e - i + 1) = e + 1 from by omega, ih]
    have hr := List.range'_append i (e - i + 1) (scenes.length - (e + 1)) 1
    simp only [one_mul] at hr
    rw [show i + (e - i + 1) = e + 1 from by omega] at hr
    rw [hr]
    congr 1
    omega

theorem cov_count (scenes : List Scene) (t tol : ℚ) {i ci : Nat} {cs : List Chunk}
    (h : ChunkCov scenes t tol i ci cs) : ∀ c ∈ cs, 1 ≤ c.scene_count := by
  induction h with
  | nil i ci h => simp
  | cons i ci e c rest h1 h2 h3 h4 h5 h6 ih =>
    intro x hx
    rcases List.mem_cons.mp hx with hx | hx
    · subst hx; subst h5; simp [mkChunk]
    · exact ih x hx

theorem getD_mem_of_lt {α : Type} (l : List α) (k : Nat) (d : α) (hk : k < l.length) :
    l.getD k d ∈ l := by
  rw [List.getD_eq_getElem?_getD, List.getElem?_eq_getElem hk]
  exact List.getElem_mem hk

theorem cov_boundaries (scenes : List Scene) (t tol : ℚ) {i ci : Nat} {cs : List Chunk}
    (h : ChunkCov scenes t tol i ci cs) :
    ∀ c ∈ cs, (∃ s ∈ scenes, c.chunk_end_sec = s.end_sec) ∧
      (∃ s ∈ scenes, c.chunk_start_sec = s.start_sec) := by
  induction h with
  | nil i ci h => simp
  | cons i ci e c rest h1 h2 h3 h4 h5 h6 ih =>
    intro x hx
    rcases List.mem_cons.mp hx with hx | hx
    · subst hx; subst h5
      constructor
      · exact ⟨scenes.getD e dummyScene, getD_mem_of_lt scenes e dummyScene h3, by simp [mkChunk]⟩
      · exact ⟨scenes.getD i dummyScene, getD_mem_of_lt scenes i dummyScene h1, by simp [mkChunk]⟩
    · exact ih x hx

theorem intRangeIncl_eq (i e : Nat) (h : i ≤ e) :
    intRangeIncl ((i : Int) + 1) ((e : Int) + 1) =
      (List.range' i (e - i + 1)).map fun k : Nat => (k : Int) + 1 := by
  rw [intRangeIncl]
  rw [show ((e : Int) + 1 + 1 - ((i : Int) + 1)).toNat = e - i + 1 from by omega]
  rw [List.range'_eq_map_range]
  rw [List.map_map]
  apply List.map_congr_left
  intro a _
  simp only [Function.comp]
  push_cast
  ring

theorem cov_bind_idx (scenes : List Scene) (t tol : ℚ)
    (hidx : ∀ k, (hk : k < scenes.length) → (scenes.get ⟨k, hk⟩).scene_index = (k : Int) + 1)
    {i ci : Nat} {cs : List Chunk} (h : ChunkCov scenes t tol i ci cs) :
    cs.flatMap (fun c => intRangeIncl c.start_scene_index c.end_scene_index) =
      (List.range' i (scenes.length - i)).map fun k : Nat => (k : Int) + 1 := by
  induction h with
  | nil i ci h => subst h; simp
  | cons i ci e c rest h1 h2 h3 h4 h5 h6 ih =>
    subst h5
    rw [List.flatMap_cons]
    have hstart : (mkChunk scenes ci i e).start_scene_index = (i : Int) + 1 := by
      simp only [mkChunk]
      rw [List.getD_eq_getElem?_getD, List.getElem?_eq_getElem h1]
      exact hidx i h1
    have hend : (mkChunk scenes ci i e).end_scene_index = (e : Int) + 1 := by
      simp only [mkChunk]
      rw [List.getD_eq_getElem?_getD, List.getElem?_eq_getElem h3]
      exact hidx e h3
    rw [hstart, hend, intRangeIncl_eq i e h2, ih]
    have hr := List.range'_append i (e - i + 1) (scenes.length - (e + 1)) 1
    simp only [one_mul] at hr
    rw [show i + (e - i + 1) = e + 1 from by omega] at hr
    rw [show scenes.length - i = (scenes.length - (e + 1)) + (e - i + 1) from by omega, ← hr]
    rw [List.map_append]

end Chunker

end AutoShorts

namespace AutoShorts

namespace Chunker

/-- Claim C3: for every sorted scene list with `target_sec > 0` and
`tolerance_sec >= 0`, the chunks returned by `build_chunks` partition the
input scene list exactly: reading `scene_count` scenes per chunk in output
order covers the positions `0, …, n-1` with no gaps or overlaps, every chunk
folds in at least one scene, and when the input's `scene_index` fields are
the usual contiguous 1-based numbering the `[start_scene_index,
end_scene_index]` ranges, in output order, enumerate every scene index
exactly once. -/
theorem build_chunks_partition (scenes : List Scene) (t tol : ℚ)
    (hs : SortedScenes scenes) (ht : 0 < t) (htol : 0 ≤ tol) :
    coveredPositions 0 (build_chunks scenes t tol) = List.range scenes.length ∧
    (∀ c ∈ build_chunks scenes t tol, 1 ≤ c.scene_count) ∧
    ((∀ k, (hk : k < scenes.length) → (scenes.get ⟨k, hk⟩).scene_index = (k : Int) + 1) →
      (build_chunks scenes t tol).flatMap
          (fun c => intRangeIncl c.start_scene_index c.end_scene_index) =
        (List.range scenes.length).map fun k : Nat => (k : Int) + 1) := by
  obtain ⟨cs, h1, hcov⟩ := buildLoop_cov scenes t tol scenes.length 0 0 (by omega) (by omega)
  have hbc : build_chunks scenes t tol = cs := by rw [build_chunks, h1]; rfl
  rw [hbc]
  refine ⟨?_, cov_count scenes t tol hcov, fun hidx => ?_⟩
  · rw [cov_positions scenes t tol hcov]
    simp [List.range_eq_range']
  · rw [cov_bind_idx scenes t tol hidx hcov]
    simp [List.range_eq_range']

/-- Witness for C3 at the spec's concrete scenario. -/
theorem build_chunks_partition_witness :
    SortedScenes [⟨1, 0, 4⟩, ⟨2, 4, 9⟩, ⟨3, 9, 14⟩, ⟨4, 14, 19⟩] ∧ (0 : ℚ) < 10 ∧ (0 : ℚ) ≤ 2 ∧
    coveredPositions 0 (build_chunks [⟨1, 0, 4⟩, ⟨2, 4, 9⟩, ⟨3, 9, 14⟩, ⟨4, 14, 19⟩] 10 2) =
      List.range ([⟨1, 0, 4⟩, ⟨2, 4, 9⟩, ⟨3, 9, 14⟩, (⟨4, 14, 19⟩ : Scene)] : List Scene).length := by
  have hs : SortedScenes [⟨1, 0, 4⟩, ⟨2, 4, 9⟩, ⟨3, 9, 14⟩, ⟨4, 14, 19⟩] := by
    rw [SortedScenes]
    norm_num [List.pairwise_cons]
  exact ⟨hs, by norm_num, by norm_num,
    (build_chunks_partition [⟨1, 0, 4⟩, ⟨2, 4, 9⟩, ⟨3, 9, 14⟩, ⟨4, 14, 19⟩] 10 2 hs (by norm_num)
      (by norm_num)).1⟩

/-- Claim C4: every chunk's `chunk_end_sec` is some input scene's `end_sec`
and every chunk's `chunk_start_sec` is some input scene's `start_sec`; no
chunk boundary falls strictly inside a scene's interval. -/
theorem build_chunks_boundary_alignment (scenes : List Scene) (t tol : ℚ)
    (hs : SortedScenes scenes) (ht : 0 < t) (htol : 0 ≤ tol) :
    ∀ c ∈ build_chunks scenes t tol,
      (∃ s ∈ scenes, c.chunk_end_sec = s.end_sec) ∧
      (∃ s ∈ scenes, c.chunk_start_sec = s.start_sec) := by
  obtain ⟨cs, h1, hcov⟩ := buildLoop_cov scenes t tol scenes.length 0 0 (by omega) (by omega)
  have hbc : build_chunks scenes t tol = cs := by rw [build_chunks, h1]; rfl
  rw [hbc]
  exact cov_boundaries scenes t tol hcov

/-- Witness for C4 at the spec's concrete scenario. -/
theorem build_chunks_boundary_alignment_witness :
    SortedScenes [⟨1, 0, 4⟩, ⟨2, 4, 9⟩, ⟨3, 9, 14⟩, ⟨4, 14, 19⟩] ∧ (0 : ℚ) < 10 ∧ (0 : ℚ) ≤ 2 ∧
    ∀ c ∈ build_chunks [⟨1, 0, 4⟩, ⟨2, 4, 9⟩, ⟨3, 9, 14⟩, ⟨4, 14, 19⟩] 10 2,
      (∃ s ∈ ([⟨1, 0, 4⟩, ⟨2, 4, 9⟩, ⟨3, 9, 14⟩, ⟨4, 14, 19⟩] : List Scene),
        c.chunk_end_sec = s.end_sec) ∧
      (∃ s ∈ ([⟨1, 0, 4⟩, ⟨2, 4, 9⟩, ⟨3, 9, 14⟩, ⟨4, 14, 19⟩] : List Scene),
        c.chunk_start_sec = s.start_sec) := by
  have hs : SortedScenes [⟨1, 0, 4⟩, ⟨2, 4, 9⟩, ⟨3, 9, 14⟩, ⟨4, 14, 19⟩] := by
    rw [SortedScenes]
    norm_num [List.pairwise_cons]
  exact ⟨hs, by norm_num, by norm_num,
    build_chunks_boundary_alignment [⟨1, 0, 4⟩, ⟨2, 4, 9⟩, ⟨3, 9, 14⟩, ⟨4, 14, 19⟩] 10 2 hs
      (by norm_num) (by norm_num)⟩

/-- Claim C7: the spec's concrete chunking scenario.  Scenes
`[(0,4), (4,9), (9,14), (14,19)]` with `target_sec = 10`, `tolerance_sec = 2`
yield exactly two chunks, `(0.0, 9.0)` and `(9.0, 19.0)`. -/
theorem build_chunks_concrete_scenario :
    build_chunks [⟨1, 0, 4⟩, ⟨2, 4, 9⟩, ⟨3, 9, 14⟩, ⟨4, 14, 19⟩] 10 2 =
      [⟨0, 1, 2, 0, 9, 9, 2⟩, ⟨1, 3, 4, 9, 19, 10, 2⟩] := by
  norm_num [build_chunks, buildLoop, chunkEnd, scanLoop, selectEndIdx, mkChunk, initScan,
    bestBeats, pyOrQ, dummyScene, List.getD]

/-- Counterexample to claim C8: `build_chunks` performs no validation of
`target_sec`.  Called with `target_sec = -1` it does not fail; it proceeds
with the chunking loop and returns a normal chunk record. -/
theorem build_chunks_nonpositive_target_counterexample :
    build_chunks [⟨1, 0, 5⟩] (-1) 0 = [⟨0, 1, 1, 0, 5, 5, 1⟩] := by
  norm_num [build_chunks, buildLoop, chunkEnd, scanLoop, selectEndIdx, mkChunk, initScan,
    bestBeats, pyOrQ, dummyScene, List.getD]

/-- Amended claim C8: `build_chunks` does not guard `target_sec <= 0` (the
spec itself notes the reference behaviour has no such guard); instead the
loop still runs, terminates, and returns a chunk list that covers every
scene position exactly once. -/
theorem build_chunks_nonpositive_target_proceeds (scenes : List Scene) (t tol : ℚ)
    (ht : t ≤ 0) :
    ∃ cs, buildLoop scenes t tol scenes.length 0 0 = some cs ∧
      build_chunks scenes t tol = cs ∧
      coveredPositions 0 cs = List.range scenes.length := by
  obtain ⟨cs, h1, hcov⟩ := buildLoop_cov scenes t tol scenes.length 0 0 (by omega) (by omega)
  refine ⟨cs, h1, by rw [build_chunks, h1]; rfl, ?_⟩
  rw [cov_positions scenes t tol hcov]
  simp [List.range_eq_range']

/-- Witness for the amended C8 at `target_sec = -1`. -/
theorem build_chunks_nonpositive_target_proceeds_witness :
    ((-1 : ℚ) ≤ 0) ∧
    ∃ cs, buildLoop [⟨1, 0, 5⟩] (-1) 0 ([(⟨1, 0, 5⟩ : Scene)] : List Scene).length 0 0 = some cs ∧
      build_chunks [⟨1, 0, 5⟩] (-1) 0 = cs ∧
      coveredPositions 0 cs = List.range ([(⟨1, 0, 5⟩ : Scene)] : List Scene).length :=
  ⟨by norm_num, build_chunks_nonpositive_target_proceeds [⟨1, 0, 5⟩] (-1) 0 (by norm_num)⟩

/-- Claim C10: `build_chunks` terminates for every finite scene list and all
parameter values (including `target_sec <= 0` and `tolerance_sec < 0`): the
loop body, run with `scenes.length` units of fuel, always completes, the
output has at most one chunk per scene, and every selected end index
satisfies `chunkEnd >= i`, so `i` strictly increases. -/
theorem build_chunks_terminates (scenes : List Scene) (t tol : ℚ) :
    (∃ cs, buildLoop scenes t tol scenes.length 0 0 = some cs ∧
      build_chunks scenes t tol = cs ∧ cs.length ≤ scenes.length) ∧
    (∀ i, i < scenes.length → i ≤ chunkEnd scenes t tol i) := by
  obtain ⟨cs, h1, hcov⟩ := buildLoop_cov scenes t tol scenes.length 0 0 (by omega) (by omega)
  refine ⟨⟨cs, h1, by rw [build_chunks, h1]; rfl, ?_⟩, fun i hi => (chunkEnd_bounds scenes t tol i hi).1⟩
  have := cov_length scenes t tol hcov
  omega

/-- Witness for C10 (instantiating its inner in-bounds hypothesis). -/
theorem build_chunks_terminates_witness :
    0 < ([(⟨1, 0, 5⟩ : Scene)] : List Scene).length ∧ 0 ≤ chunkEnd [⟨1, 0, 5⟩] (-1) (-1) 0 :=
  ⟨by norm_num, (build_chunks_terminates [⟨1, 0, 5⟩] (-1) (-1)).2 0 (by norm_num)⟩

end Chunker

/-- Claim C9: an empty scene list is not an error for either stage: the merge
stage and the chunk builder both map `[]` to `[]` for all parameters. -/
theorem empty_input_empty_output :
    (∀ (mn : ℚ) (mc : Int), SceneMerge.merge_micro_scenes [] mn mc = []) ∧
    (∀ (t tol : ℚ), Chunker.build_chunks [] t tol = []) :=
  ⟨fun _ _ => rfl, fun _ _ => rfl⟩

end AutoShorts
namespace AutoShorts

namespace Chunker

theorem LUInv_step_under (scenes : List Scene) (t : ℚ) (i j : Nat)
    (hij : i ≤ j) (hdt : durAt scenes i j ≤ t) :
    LUInv scenes t i (j + 1) (some j) :=
  Or.inr ⟨j, rfl, hij, by omega, hdt, fun _ hk1 hk2 => by omega⟩

theorem LUInv_step_keep (scenes : List Scene) (t : ℚ) (i j : Nat) (lu : Option Nat)
    (hdt : ¬ durAt scenes i j ≤ t) (h : LUInv scenes t i j lu) :
    LUInv scenes t i (j + 1) lu := by
  rcases h with ⟨h1, h2⟩ | ⟨u, h1, h2, h3, h4, h5⟩
  · refine Or.inl ⟨h1, fun k hk1 hk2 => ?_⟩
    rcases Nat.lt_or_ge k j with hk | hk
    · exact h2 k hk1 hk
    · have hkj : k = j := by omega
      subst hkj
      exact not_le.mp hdt
  · refine Or.inr ⟨u, h1, h2, by omega, h4, fun k hk1 hk2 => ?_⟩
    rcases Nat.lt_or_ge k j with hk | hk
    · exact h5 k hk1 hk
    · have hkj : k = j := by omega
      subst hkj
      exact not_le.mp hdt

theorem NoOver_step (scenes : List Scene) (t tol : ℚ) (i j : Nat)
    (hnd : durAt scenes i j ≤ t + tol) (h : NoOver scenes t tol i j) :
    NoOver scenes t tol i (j + 1) := by
  intro k hk1 hk2
  rcases Nat.lt_or_ge k j with hk | hk
  · exact h k hk1 hk
  · have hkj : k = j := by omega
    subst hkj
    exact hnd

theorem BInv_step_nband (scenes : List Scene) (t tol : ℚ) (i j : Nat)
    (bi : Option Nat) (ba bd : Option ℚ)
    (hband : ¬ |durAt scenes i j - t| ≤ tol)
    (h : BInv scenes t tol i j bi ba bd) : BInv scenes t tol i (j + 1) bi ba bd := by
  rcases h with ⟨h1, h2, h3, h4⟩ | ⟨b, h1, h2, h3, h4, h5, h6, h7⟩
  · refine Or.inl ⟨h1, h2, h3, fun k hk1 hk2 => ?_⟩
    rcases Nat.lt_or_ge k j with hk | hk
    · exact h4 k hk1 hk
    · have hkj : k = j := by omega
      subst hkj
      exact not_le.mp hband
  · refine Or.inr ⟨b, h1, h2, h3, h4, by omega, h6, fun k hk1 hk2 hk3 => ?_⟩
    rcases Nat.lt_or_ge k j with hk | hk
    · exact h7 k hk1 hk hk3
    · have hkj : k = j := by omega
      subst hkj
      exact absurd hk3 hband

theorem BInv_step_true (scenes : List Scene) (t tol : ℚ) (i j : Nat)
    (bi : Option Nat) (ba bd : Option ℚ) (hij : i ≤ j)
    (hband : |durAt scenes i j - t| ≤ tol)
    (h : BInv scenes t tol i j bi ba bd)
    (hbeats : bestBeats ba bd |durAt scenes i j - t| (durAt scenes i j) = true) :
    BInv scenes t tol i (j + 1) (some j) (some |durAt scenes i j - t|)
      (some (durAt scenes i j)) := by
  refine Or.inr ⟨j, rfl, rfl, rfl, hij, by omega, hband, fun k hk1 hk2 hk3 => ?_⟩
  rcases Nat.lt_or_ge k j with hk | hk
  · rcases h with ⟨h1, h2, h3, h4⟩ | ⟨b, h1, h2, h3, h4, h5, h6, h7⟩
    · exact absurd hk3 (not_le.mpr (h4 k hk1 hk))
    · rw [h2, h3] at hbeats
      simp only [bestBeats, Bool.or_eq_true, Bool.and_eq_true, decide_eq_true_eq] at hbeats
      have hbk := h7 k hk1 hk hk3
      rcases hbeats with hlt | ⟨heq, hdlt⟩
      · left
        rcases hbk with h' | ⟨h', _⟩
        · exact lt_trans hlt h'
        · exact lt_of_lt_of_eq hlt h'
      · simp only [pyOrQ] at hdlt
        by_cases hz : durAt scenes i b = 0
        · rw [if_pos hz] at hdlt
          exact absurd hdlt (lt_irrefl _)
        · rw [if_neg hz] at hdlt
          rcases hbk with h' | ⟨h', hle⟩
          · left
            exact lt_of_eq_of_lt heq h'
          · right
            exact ⟨heq.trans h', le_trans (le_of_lt hdlt) hle⟩
  · have hkj : k = j := by omega
    subst hkj
    exact Or.inr ⟨rfl, le_refl _⟩

theorem BInv_step_false (scenes : List Scene) (t tol : ℚ) (i j : Nat)
    (bi : Option Nat) (ba bd : Option ℚ) (ht : 0 ≤ t)
    (hband : |durAt scenes i j - t| ≤ tol)
    (h : BInv scenes t tol i j bi ba bd)
    (hbeats : bestBeats ba bd |durAt scenes i j - t| (durAt scenes i j) = false) :
    BInv scenes t tol i (j + 1) bi ba bd := by
  rcases h with ⟨h1, h2, h3, h4⟩ | ⟨b, h1, h2, h3, h4, h5, h6, h7⟩
  · rw [h2] at hbeats
    simp [bestBeats] at hbeats
  · refine Or.inr ⟨b, h1, h2, h3, h4, by omega, h6, fun k hk1 hk2 hk3 => ?_⟩
    rcases Nat.lt_or_ge k j with hk | hk
    · exact h7 k hk1 hk hk3
    · have hkj : k = j := by omega
      subst hkj
      rw [h2, h3] at hbeats
      simp only [bestBeats, Bool.or_eq_false_iff, Bool.and_eq_false_iff,
        decide_eq_false_iff_not] at hbeats
      obtain ⟨hnlt, hrest⟩ := hbeats
      have hge : |durAt scenes i b - t| ≤ |durAt scenes i k - t| := not_lt.mp hnlt
      rcases lt_or_eq_of_le hge with hlt | heq
      · exact Or.inl hlt
      · refine Or.inr ⟨heq, ?_⟩
        rcases hrest with hne | hnlt2
        · exact absurd heq.symm hne
        · simp only [pyOrQ] at hnlt2
          by_cases hz : durAt scenes i b = 0
          · rw [hz]
            have habs : |durAt scenes i k - t| = t := by
              rw [← heq, hz, zero_sub, abs_neg, abs_of_nonneg ht]
            rcases (abs_eq ht).mp habs with h' | h' <;> linarith
          · rw [if_neg hz] at hnlt2
            exact not_lt.mp hnlt2

end Chunker

end AutoShorts

namespace AutoShorts

namespace Chunker

theorem scanLoop_post (scenes : List Scene) (t tol : ℚ) (ht : 0 ≤ t) (htol : 0 ≤ tol) (i : Nat) :
    ∀ (l : List Scene) (j : Nat) (st : ScanState), scenes.drop j = l → i ≤ j →
      j ≤ scenes.length →
      st.first_over_idx = none →
      LUInv scenes t i j st.last_under_idx →
      BInv scenes t tol i j st.best_idx st.best_abs st.best_dur →
      NoOver scenes t tol i j →
      ScanPost scenes t tol i
        (scanLoop t tol ((scenes.getD i dummyScene).start_sec) l j st) := by
  intro l
  induction l with
  | nil =>
    intro j st hdrop hij hjn hfo hlu hb hno
    have hj : scenes.length ≤ j := List.drop_eq_nil_iff.mp hdrop
    have hjeq : j = scenes.length := by omega
    subst hjeq
    rw [scanLoop]
    exact Or.inl ⟨hfo, hno, hlu, hb⟩
  | cons sc rest ih =>
    intro j st hdrop hij hjn hfo hlu hb hno
    have hjlt : j < scenes.length := by
      by_contra hcon
      rw [List.drop_eq_nil_iff.mpr (by omega)] at hdrop
      exact List.cons_ne_nil sc rest hdrop.symm
    have hgd : scenes.getD j dummyScene = sc := by
      have h0 : (scenes.drop j)[0]? = some sc := by rw [hdrop]; simp
      rw [List.getElem?_drop, Nat.add_zero] at h0
      rw [List.getD_eq_getElem?_getD, h0]
      rfl
    have hsc : sc.end_sec - (scenes.getD i dummyScene).start_sec = durAt scenes i j := by
      rw [durAt, hgd]
    have hrest : scenes.drop (j + 1) = rest := by
      rw [← List.tail_drop, hdrop]
      rfl
    obtain ⟨lu, fo, bi, ba, bd⟩ := st
    simp only at hfo hlu hb
    subst hfo
    rw [scanLoop]
    simp only [hsc]
    by_cases hover : t + tol < durAt scenes i j
    · have hnd : ¬ durAt scenes i j ≤ t := by
        intro hcon
        have h1 : (0 : ℚ) ≤ tol := htol
        linarith
      have hnb : ¬ |durAt scenes i j - t| ≤ tol := by
        intro hcon
        have h1 : durAt scenes i j - t ≤ tol := le_trans (le_abs_self _) hcon
        linarith
      rw [if_neg hnd, if_neg hnb, if_pos hover]
      exact Or.inr ⟨j, rfl, hij, hjlt, hover, hno, hlu, hb⟩
    · rw [if_neg hover]
      have hnd2 : durAt scenes i j ≤ t + tol := not_lt.mp hover
      by_cases hdt : durAt scenes i j ≤ t
      · rw [if_pos hdt]
        dsimp only
        by_cases hband : |durAt scenes i j - t| ≤ tol
        · rw [if_pos hband]
          by_cases hbeats : bestBeats ba bd |durAt scenes i j - t| (durAt scenes i j) = true
          · rw [if_pos hbeats]
            exact ih (j + 1) ⟨some j, none, some j, some |durAt scenes i j - t|,
                some (durAt scenes i j)⟩ hrest (by omega) (by omega) rfl
              (LUInv_step_under scenes t i j hij hdt)
              (BInv_step_true scenes t tol i j bi ba bd hij hband hb hbeats)
              (NoOver_step scenes t tol i j hnd2 hno)
          · rw [if_neg hbeats]
            exact ih (j + 1) ⟨some j, none, bi, ba, bd⟩ hrest (by omega) (by omega) rfl
              (LUInv_step_under scenes t i j hij hdt)
              (BInv_step_false scenes t tol i j bi ba bd ht hband hb
                (Bool.not_eq_true _ ▸ hbeats))
              (NoOver_step scenes t tol i j hnd2 hno)
        · rw [if_neg hband]
          exact ih (j + 1) ⟨some j, none, bi, ba, bd⟩ hrest (by omega) (by omega) rfl
            (LUInv_step_under scenes t i j hij hdt)
            (BInv_step_nband scenes t tol i j bi ba bd hband hb)
            (NoOver_step scenes t tol i j hnd2 hno)
      · rw [if_neg hdt]
        by_cases hband : |durAt scenes i j - t| ≤ tol
        · rw [if_pos hband]
          by_cases hbeats : bestBeats ba bd |durAt scenes i j - t| (durAt scenes i j) = true
          · rw [if_pos hbeats]
            exact ih (j + 1) ⟨lu, none, some j, some |durAt scenes i j - t|,
                some (durAt scenes i j)⟩ hrest (by omega) (by omega) rfl
              (LUInv_step_keep scenes t i j lu hdt hlu)
              (BInv_step_true scenes t tol i j bi ba bd hij hband hb hbeats)
              (NoOver_step scenes t tol i j hnd2 hno)
          · rw [if_neg hbeats]
            exact ih (j + 1) ⟨lu, none, bi, ba, bd⟩ hrest (by omega) (by omega) rfl
              (LUInv_step_keep scenes t i j lu hdt hlu)
              (BInv_step_false scenes t tol i j bi ba bd ht hband hb
                (Bool.not_eq_true _ ▸ hbeats))
              (NoOver_step scenes t tol i j hnd2 hno)
        · rw [if_neg hband]
          exact ih (j + 1) ⟨lu, none, bi, ba, bd⟩ hrest (by omega) (by omega) rfl
            (LUInv_step_keep scenes t i j lu hdt hlu)
            (BInv_step_nband scenes t tol i j bi ba bd hband hb)
            (NoOver_step scenes t tol i j hnd2 hno)

end Chunker

end AutoShorts

namespace AutoShorts

namespace Chunker

theorem scanned_iff_noOver (scenes : List Scene) (t tol : ℚ) (i : Nat)
    (hno : NoOver scenes t tol i scenes.length) (j : Nat) :
    Scanned scenes t tol i j ↔ (i ≤ j ∧ j < scenes.length) := by
  constructor
  · rintro ⟨h1, h2, _⟩
    exact ⟨h1, h2⟩
  · rintro ⟨h1, h2⟩
    exact ⟨h1, h2, fun k hk1 hk2 => hno k hk1 (by omega)⟩

theorem scanned_iff_break (scenes : List Scene) (t tol : ℚ) (i f : Nat) (hif : i ≤ f)
    (hfn : f < scenes.length) (hover : t + tol < durAt scenes i f)
    (hno : NoOver scenes t tol i f) (j : Nat) :
    Scanned scenes t tol i j ↔ (i ≤ j ∧ j ≤ f) := by
  constructor
  · rintro ⟨h1, h2, h3⟩
    refine ⟨h1, ?_⟩
    by_contra hcon
    exact absurd (h3 f hif (by omega)) (not_le.mpr hover)
  · rintro ⟨h1, h2⟩
    exact ⟨h1, by omega, fun k hk1 hk2 => hno k hk1 (by omega)⟩

theorem chunkEnd_post (scenes : List Scene) (t tol : ℚ) (ht : 0 ≤ t) (htol : 0 ≤ tol)
    (i : Nat) (hi : i ≤ scenes.length) :
    ScanPost scenes t tol i
      (scanLoop t tol ((scenes.getD i dummyScene).start_sec) (scenes.drop i) i initScan) :=
  scanLoop_post scenes t tol ht htol i (scenes.drop i) i initScan rfl le_rfl hi rfl
    (Or.inl ⟨rfl, fun _ h1 h2 => by omega⟩)
    (Or.inl ⟨rfl, rfl, rfl, fun _ h1 h2 => by omega⟩)
    (fun _ h1 h2 => by omega)

theorem post_best_some (scenes : List Scene) (t tol : ℚ) (i : Nat)
    {st : ScanState} (hpost : ScanPost scenes t tol i st) (b : Nat)
    (hbi : st.best_idx = some b) : BestAt scenes t tol i b := by
  rcases hpost with ⟨hfo, hno, hlu, hb⟩ | ⟨f, hfo, hif, hfn, hoverf, hno, hlu, hb⟩
  · rcases hb with ⟨h1, _, _, _⟩ | ⟨b2, h1, h2, h3, h4, h5, h6, h7⟩
    · rw [hbi] at h1
      simp at h1
    · rw [hbi] at h1
      injection h1 with hbb
      subst hbb
      refine ⟨(scanned_iff_noOver scenes t tol i hno b).mpr ⟨h4, h5⟩, h6, fun j hj hbj => ?_⟩
      rw [scanned_iff_noOver scenes t tol i hno j] at hj
      exact h7 j hj.1 hj.2 hbj
  · rcases hb with ⟨h1, _, _, _⟩ | ⟨b2, h1, h2, h3, h4, h5, h6, h7⟩
    · rw [hbi] at h1
      simp at h1
    · rw [hbi] at h1
      injection h1 with hbb
      subst hbb
      refine ⟨(scanned_iff_break scenes t tol i f hif hfn hoverf hno b).mpr ⟨h4, by omega⟩,
        h6, fun j hj hbj => ?_⟩
      rw [scanned_iff_break scenes t tol i f hif hfn hoverf hno j] at hj
      rcases Nat.lt_or_ge j f with hjf | hjf
      · exact h7 j hj.1 hjf hbj
      · have hjf2 : j = f := by omega
        subst hjf2
        exfalso
        have hbj2 : |durAt scenes i j - t| ≤ tol := hbj
        have h8 : durAt scenes i j - t ≤ tol := le_trans (le_abs_self _) hbj2
        linarith

theorem post_best_none (scenes : List Scene) (t tol : ℚ) (i : Nat)
    {st : ScanState} (hpost : ScanPost scenes t tol i st)
    (hbi : st.best_idx = none) :
    ∀ j, Scanned scenes t tol i j → ¬ InBand scenes t tol i j := by
  rcases hpost with ⟨hfo, hno, hlu, hb⟩ | ⟨f, hfo, hif, hfn, hoverf, hno, hlu, hb⟩
  · rcases hb with ⟨h1, _, _, h4⟩ | ⟨b2, h1, h2, h3, h4, h5, h6, h7⟩
    · intro j hj hbj
      rw [scanned_iff_noOver scenes t tol i hno j] at hj
      have hbj2 : |durAt scenes i j - t| ≤ tol := hbj
      exact absurd hbj2 (not_le.mpr (h4 j hj.1 hj.2))
    · rw [hbi] at h1
      simp at h1
  · rcases hb with ⟨h1, _, _, h4⟩ | ⟨b2, h1, h2, h3, h4, h5, h6, h7⟩
    · intro j hj hbj
      rw [scanned_iff_break scenes t tol i f hif hfn hoverf hno j] at hj
      have hbj2 : |durAt scenes i j - t| ≤ tol := hbj
      rcases Nat.lt_or_ge j f with hjf | hjf
      · exact absurd hbj2 (not_le.mpr (h4 j hj.1 hjf))
      · have hjf2 : j = f := by omega
        subst hjf2
        have h8 : durAt scenes i j - t ≤ tol := le_trans (le_abs_self _) hbj2
        linarith
    · rw [hbi] at h1
      simp at h1

end Chunker

end AutoShorts

namespace AutoShorts

namespace Chunker

theorem chunkEnd_endSel (scenes : List Scene) (t tol : ℚ) (ht : 0 ≤ t) (htol : 0 ≤ tol)
    (i : Nat) (hi : i < scenes.length) :
    EndSel scenes t tol i (chunkEnd scenes t tol i) := by
  have hpost := chunkEnd_post scenes t tol ht htol i (by omega)
  set st := scanLoop t tol ((scenes.getD i dummyScene).start_sec) (scenes.drop i) i initScan
    with hst
  rcases hbi : st.best_idx with _ | b
  · have hnb := post_best_none scenes t tol i hpost hbi
    rcases hpost with ⟨hfo, hno, hlu, hb⟩ | ⟨f, hfo, hif, hfn, hoverf, hno, hlu, hb⟩
    · have he : chunkEnd scenes t tol i = scenes.length - 1 := by
        rw [chunkEnd, ← hst, selectEndIdx, hbi, hfo]
      rw [he]
      refine Or.inr (Or.inl ⟨hnb, ?_, rfl⟩)
      intro j h1 h2 hoverj
      have hoverj2 : t + tol < durAt scenes i j := hoverj
      exact absurd hoverj2 (not_lt.mpr (hno j h1 h2))
    · have hscj := scanned_iff_break scenes t tol i f hif hfn hoverf hno
      rcases hluc : st.last_under_idx with _ | u
      · have he : chunkEnd scenes t tol i = f := by
          rw [chunkEnd, ← hst, selectEndIdx, hbi, hfo, hluc]
        rw [he]
        refine Or.inr (Or.inr (Or.inl ⟨hnb, ?_, (hscj f).mpr ⟨hif, le_refl f⟩, hoverf⟩))
        intro j hj
        rw [hscj j] at hj
        rcases hlu with ⟨h1, h2⟩ | ⟨u, h1, _⟩
        · rcases Nat.lt_or_ge j f with hjf | hjf
          · exact h2 j hj.1 hjf
          · have hjf2 : j = f := by omega
            subst hjf2
            linarith
        · rw [hluc] at h1
          simp at h1
      · rcases hlu with ⟨h1, _⟩ | ⟨u2, h1, hiu, huf, hdu, hmax⟩
        · rw [hluc] at h1
          simp at h1
        · rw [hluc] at h1
          injection h1 with huu
          subst huu
          have he : chunkEnd scenes t tol i =
              if |t - durAt scenes i u| ≤ |durAt scenes i f - t| then u else f := by
            rw [chunkEnd, ← hst, selectEndIdx, hbi, hfo, hluc]
            rfl
          rw [he]
          refine Or.inr (Or.inr (Or.inr ⟨hnb, u, ⟨(hscj u).mpr ⟨hiu, by omega⟩, hdu, ?_⟩,
            f, ⟨(hscj f).mpr ⟨hif, le_refl f⟩, hoverf⟩, rfl⟩))
          intro j hj hdj
          rw [hscj j] at hj
          by_contra hcon
          have huj : u < j := by omega
          rcases Nat.lt_or_ge j f with hjf | hjf
          · exact absurd hdj (not_le.mpr (hmax j huj hjf))
          · have hjf2 : j = f := by omega
            subst hjf2
            have hdj2 : durAt scenes i j ≤ t := hdj
            linarith
  · have he : chunkEnd scenes t tol i = b := by
      rw [chunkEnd, ← hst, selectEndIdx, hbi]
    rw [he]
    have hbest := post_best_some scenes t tol i hpost b hbi
    exact Or.inl ⟨⟨b, hbest.1, hbest.2.1⟩, hbest⟩

end Chunker

end AutoShorts

namespace AutoShorts

namespace Chunker

/-- Claim C1: for every non-empty sorted scene list with `target_sec > 0` and
`tolerance_sec >= 0`, `build_chunks` selects each chunk's end boundary by the
spec's priority order: the best in-band candidate if one exists; else the
last scene of the list if nothing ever exceeded `target + tolerance`; else
the first over-band scene if no scanned duration was ever `<= target`; else
whichever of the last under-target scene and the first over-band scene ends
closer to `target`, ties favoring the under-target one (`EndSel`).  The
output decomposes into chunks whose end positions are exactly those selected
(`ChunkCov`), and every possible chunk start's selection obeys the policy. -/
theorem build_chunks_end_boundary_policy (scenes : List Scene) (t tol : ℚ)
    (hne : scenes ≠ []) (hs : SortedScenes scenes) (ht : 0 < t) (htol : 0 ≤ tol) :
    ChunkCov scenes t tol 0 0 (build_chunks scenes t tol) ∧
    ∀ i, i < scenes.length → EndSel scenes t tol i (chunkEnd scenes t tol i) := by
  obtain ⟨cs, h1, hcov⟩ := buildLoop_cov scenes t tol scenes.length 0 0 (by omega) (by omega)
  have hbc : build_chunks scenes t tol = cs := by rw [build_chunks, h1]; rfl
  rw [hbc]
  exact ⟨hcov, fun i hi => chunkEnd_endSel scenes t tol (le_of_lt ht) htol i hi⟩

/-- Witness for C1 at the spec's concrete scenario. -/
theorem build_chunks_end_boundary_policy_witness :
    ([⟨1, 0, 4⟩, ⟨2, 4, 9⟩, ⟨3, 9, 14⟩, (⟨4, 14, 19⟩ : Scene)] : List Scene) ≠ [] ∧
    SortedScenes [⟨1, 0, 4⟩, ⟨2, 4, 9⟩, ⟨3, 9, 14⟩, ⟨4, 14, 19⟩] ∧
    (0 : ℚ) < 10 ∧ (0 : ℚ) ≤ 2 ∧
    (ChunkCov [⟨1, 0, 4⟩, ⟨2, 4, 9⟩, ⟨3, 9, 14⟩, ⟨4, 14, 19⟩] 10 2 0 0
        (build_chunks [⟨1, 0, 4⟩, ⟨2, 4, 9⟩, ⟨3, 9, 14⟩, ⟨4, 14, 19⟩] 10 2) ∧
      ∀ i, i < ([⟨1, 0, 4⟩, ⟨2, 4, 9⟩, ⟨3, 9, 14⟩, (⟨4, 14, 19⟩ : Scene)] : List Scene).length →
        EndSel [⟨1, 0, 4⟩, ⟨2, 4, 9⟩, ⟨3, 9, 14⟩, ⟨4, 14, 19⟩] 10 2 i
          (chunkEnd [⟨1, 0, 4⟩, ⟨2, 4, 9⟩, ⟨3, 9, 14⟩, ⟨4, 14, 19⟩] 10 2 i)) := by
  have hne : ([⟨1, 0, 4⟩, ⟨2, 4, 9⟩, ⟨3, 9, 14⟩, (⟨4, 14, 19⟩ : Scene)] : List Scene) ≠ [] := by
    simp
  have hs : SortedScenes [⟨1, 0, 4⟩, ⟨2, 4, 9⟩, ⟨3, 9, 14⟩, ⟨4, 14, 19⟩] := by
    rw [SortedScenes]
    norm_num [List.pairwise_cons]
  exact ⟨hne, hs, by norm_num, by norm_num,
    build_chunks_end_boundary_policy [⟨1, 0, 4⟩, ⟨2, 4, 9⟩, ⟨3, 9, 14⟩, ⟨4, 14, 19⟩] 10 2 hne hs
      (by norm_num) (by norm_num)⟩

/-- Claim C5: in the forward scan for the chunk starting at position `i`,
whenever the `best` tracker ends up holding a candidate, that candidate is an
in-band scanned scene minimizing `|duration - target|`, with ties preferring
the smaller duration; and when it holds none, no scanned scene was in band. -/
theorem scan_best_minimizes (scenes : List Scene) (t tol : ℚ) (i : Nat)
    (hs : SortedScenes scenes) (ht : 0 < t) (htol : 0 ≤ tol) (hi : i < scenes.length) :
    (∀ b, (scanLoop t tol ((scenes.getD i dummyScene).start_sec) (scenes.drop i) i
        initScan).best_idx = some b → BestAt scenes t tol i b) ∧
    ((scanLoop t tol ((scenes.getD i dummyScene).start_sec) (scenes.drop i) i
        initScan).best_idx = none →
      ∀ j, Scanned scenes t tol i j → ¬ InBand scenes t tol i j) := by
  have hpost := chunkEnd_post scenes t tol (le_of_lt ht) htol i (by omega)
  exact ⟨fun b hb => post_best_some scenes t tol i hpost b hb,
    fun hb => post_best_none scenes t tol i hpost hb⟩

/-- Witness for C5 at the spec's concrete scenario, chunk starting at 0. -/
theorem scan_best_minimizes_witness :
    SortedScenes [⟨1, 0, 4⟩, ⟨2, 4, 9⟩, ⟨3, 9, 14⟩, ⟨4, 14, 19⟩] ∧
    (0 : ℚ) < 10 ∧ (0 : ℚ) ≤ 2 ∧
    0 < ([⟨1, 0, 4⟩, ⟨2, 4, 9⟩, ⟨3, 9, 14⟩, (⟨4, 14, 19⟩ : Scene)] : List Scene).length ∧
    ((∀ b, (scanLoop 10 2
        ((([⟨1, 0, 4⟩, ⟨2, 4, 9⟩, ⟨3, 9, 14⟩, (⟨4, 14, 19⟩ : Scene)] : List Scene).getD 0
          dummyScene).start_sec)
        (([⟨1, 0, 4⟩, ⟨2, 4, 9⟩, ⟨3, 9, 14⟩, (⟨4, 14, 19⟩ : Scene)] : List Scene).drop 0) 0
        initScan).best_idx = some b →
      BestAt [⟨1, 0, 4⟩, ⟨2, 4, 9⟩, ⟨3, 9, 14⟩, ⟨4, 14, 19⟩] 10 2 0 b) ∧
    ((scanLoop 10 2
        ((([⟨1, 0, 4⟩, ⟨2, 4, 9⟩, ⟨3, 9, 14⟩, (⟨4, 14, 19⟩ : Scene)] : List Scene).getD 0
          dummyScene).start_sec)
        (([⟨1, 0, 4⟩, ⟨2, 4, 9⟩, ⟨3, 9, 14⟩, (⟨4, 14, 19⟩ : Scene)] : List Scene).drop 0) 0
        initScan).best_idx = none →
      ∀ j, Scanned [⟨1, 0, 4⟩, ⟨2, 4, 9⟩, ⟨3, 9, 14⟩, ⟨4, 14, 19⟩] 10 2 0 j →
        ¬ InBand [⟨1, 0, 4⟩, ⟨2, 4, 9⟩, ⟨3, 9, 14⟩, ⟨4, 14, 19⟩] 10 2 0 j)) := by
  have hs : SortedScenes [⟨1, 0, 4⟩, ⟨2, 4, 9⟩, ⟨3, 9, 14⟩, ⟨4, 14, 19⟩] := by
    rw [SortedScenes]
    norm_num [List.pairwise_cons]
  exact ⟨hs, by norm_num, by norm_num, by norm_num,
    scan_best_minimizes [⟨1, 0, 4⟩, ⟨2, 4, 9⟩, ⟨3, 9, 14⟩, ⟨4, 14, 19⟩] 10 2 0 hs (by norm_num)
      (by norm_num) (by norm_num)⟩

end Chunker

end AutoShorts
